import Mathlib

set_option autoImplicit false

/-!
Verification of the ShopMate resilience/dispatch core against its
natural-language specification.

The Python sources are shallowly embedded:
* `src/core/circuit_breaker.py`   → namespace `ShopMate.CB`
* `src/core/response_cache.py`    → namespace `ShopMate.Cache`
* `src/core/ab_testing.py`        → namespace `ShopMate.AB`
* `src/graphs/customer_service_graph.py` (SupervisorAgent.route)
                                  → namespace `ShopMate.Dispatch`

Mutable Python objects become immutable records with explicit state
passing; every call that reads the wall clock (`time.time()`) takes the
current time as an explicit `now : ℤ` argument; a raised exception
becomes an `Except`/`Option` result.
-/

namespace ShopMate

namespace CB

/-- The three breaker states (`CircuitState` in `circuit_breaker.py`).
The `OPEN` member is rendered `opened` because `open` is a Lean keyword. -/
inductive CircuitState where
  | closed
  | opened
  | halfOpen
deriving DecidableEq, Repr

/-- A `CircuitBreaker` instance together with its `CircuitBreakerStats`:
configuration fields (`failure_threshold`, `recovery_timeout`,
`half_open_max_calls`), the stored `_state`, the stats counters, and the
`_half_open_calls` trial counter.  The optional `fallback` producer is
passed to the call functions separately (as the value it would produce). -/
structure CircuitBreaker where
  failure_threshold : Nat
  recovery_timeout : ℤ
  half_open_max_calls : Nat
  state : CircuitState
  total_calls : Nat
  success_count : Nat
  failure_count : Nat
  consecutive_failures : Nat
  last_failure_time : ℤ
  state_changes : List (CircuitState × CircuitState × ℤ)
  half_open_calls : Nat
deriving DecidableEq, Repr

/-- `CircuitBreaker.__init__`: fresh breaker in `CLOSED` with zeroed
counters (`last_failure_time` starts as `0`, as in
`CircuitBreakerStats`). -/
def mkCircuitBreaker (failureThreshold : Nat) (recoveryTimeout : ℤ)
    (halfOpenMaxCalls : Nat) : CircuitBreaker :=
  { failure_threshold := failureThreshold
    recovery_timeout := recoveryTimeout
    half_open_max_calls := halfOpenMaxCalls
    state := CircuitState.closed
    total_calls := 0
    success_count := 0
    failure_count := 0
    consecutive_failures := 0
    last_failure_time := 0
    state_changes := []
    half_open_calls := 0 }

/-- `CircuitBreaker._transition_to`: record the transition in the log and,
on entering `HALF_OPEN`, reset the trial counter to 0. -/
def transitionTo (b : CircuitBreaker) (newState : CircuitState) (now : ℤ) :
    CircuitBreaker :=
  if b.state ≠ newState then
    let b' := { b with
      state := newState
      state_changes := b.state_changes ++ [(b.state, newState, now)] }
    if newState = CircuitState.halfOpen then
      { b' with half_open_calls := 0 }
    else b'
  else b

/-- The `CircuitBreaker.state` property: a lazy state check that moves
`OPEN → HALF_OPEN` once `recovery_timeout` has elapsed since the last
failure.  The observed state is `(checkState b now).state`. -/
def checkState (b : CircuitBreaker) (now : ℤ) : CircuitBreaker :=
  if b.state = CircuitState.opened ∧
      now - b.last_failure_time ≥ b.recovery_timeout then
    transitionTo b CircuitState.halfOpen now
  else b

/-- `CircuitBreaker._record_success`. -/
def recordSuccess (b : CircuitBreaker) (now : ℤ) : CircuitBreaker :=
  let b1 := { b with
    total_calls := b.total_calls + 1
    success_count := b.success_count + 1
    consecutive_failures := 0 }
  if b1.state = CircuitState.halfOpen then
    let b2 := { b1 with half_open_calls := b1.half_open_calls + 1 }
    if b2.half_open_calls ≥ b2.half_open_max_calls then
      transitionTo b2 CircuitState.closed now
    else b2
  else b1

/-- `CircuitBreaker._record_failure`. -/
def recordFailure (b : CircuitBreaker) (now : ℤ) : CircuitBreaker :=
  let b1 := { b with
    total_calls := b.total_calls + 1
    failure_count := b.failure_count + 1
    consecutive_failures := b.consecutive_failures + 1
    last_failure_time := now }
  if b1.state = CircuitState.closed then
    if b1.consecutive_failures ≥ b1.failure_threshold then
      transitionTo b1 CircuitState.opened now
    else b1
  else if b1.state = CircuitState.halfOpen then
    transitionTo b1 CircuitState.opened now
  else b1

/-- Errors surfaced by a protected call: `CircuitOpenError`, or the
re-raised exception of the wrapped operation. -/
inductive CallError where
  | circuitOpenError
  | opError
deriving DecidableEq, Repr

/-- `CircuitBreaker.call_sync`.  The wrapped operation `op` is its
outcome (`Except.error ()` models a raised exception) and `fallback`
the value the optional fallback producer would return. -/
def callSync {α : Type} (b : CircuitBreaker) (now : ℤ) (fallback : Option α)
    (op : Except Unit α) : Except CallError α × CircuitBreaker :=
  let b1 := checkState b now
  if b1.state = CircuitState.opened then
    match fallback with
    | some v => (Except.ok v, b1)
    | none => (Except.error CallError.circuitOpenError, b1)
  else
    match op with
    | Except.ok v => (Except.ok v, recordSuccess b1 now)
    | Except.error _ =>
      match fallback with
      | some v => (Except.ok v, recordFailure b1 now)
      | none => (Except.error CallError.opError, recordFailure b1 now)

/-- `CircuitBreaker.call_async`: apart from awaiting the wrapped
operation and taking the instance lock, its branch structure is
identical to `call_sync`. -/
def callAsync {α : Type} (b : CircuitBreaker) (now : ℤ) (fallback : Option α)
    (op : Except Unit α) : Except CallError α × CircuitBreaker :=
  let b1 := checkState b now
  if b1.state = CircuitState.opened then
    match fallback with
    | some v => (Except.ok v, b1)
    | none => (Except.error CallError.circuitOpenError, b1)
  else
    match op with
    | Except.ok v => (Except.ok v, recordSuccess b1 now)
    | Except.error _ =>
      match fallback with
      | some v => (Except.ok v, recordFailure b1 now)
      | none => (Except.error CallError.opError, recordFailure b1 now)

/-- A run of consecutive recorded failures at the given times. -/
def failRun (b : CircuitBreaker) (ts : List ℤ) : CircuitBreaker :=
  ts.foldl recordFailure b

/-- A run of consecutive recorded successes at the given times. -/
def succRun (b : CircuitBreaker) (ts : List ℤ) : CircuitBreaker :=
  ts.foldl recordSuccess b

theorem recordFailure_closed_step (b : CircuitBreaker) (t : ℤ)
    (h : b.state = CircuitState.closed)
    (hlt : b.consecutive_failures + 1 < b.failure_threshold) :
    (recordFailure b t).state = CircuitState.closed ∧
    (recordFailure b t).consecutive_failures = b.consecutive_failures + 1 ∧
    (recordFailure b t).failure_threshold = b.failure_threshold := by
  have hge : ¬ (b.consecutive_failures + 1 ≥ b.failure_threshold) := by omega
  simp [recordFailure, h, hge]

theorem failRun_stays_closed (ts : List ℤ) (b : CircuitBreaker)
    (h : b.state = CircuitState.closed)
    (hl : b.consecutive_failures + ts.length < b.failure_threshold) :
    (failRun b ts).state = CircuitState.closed ∧
    (failRun b ts).consecutive_failures = b.consecutive_failures + ts.length ∧
    (failRun b ts).failure_threshold = b.failure_threshold := by
  induction ts generalizing b with
  | nil => simp [failRun, h]
  | cons t ts ih =>
    have hstep := recordFailure_closed_step b t h (by simp at hl; omega)
    have hrec : failRun b (t :: ts) = failRun (recordFailure b t) ts := rfl
    rw [hrec]
    obtain ⟨h1, h2, h3⟩ := hstep
    have := ih (recordFailure b t) h1 (by simp at hl ⊢; omega)
    simp only [h2, h3] at this
    refine ⟨this.1, ?_, this.2.2⟩
    rw [this.2.1]
    simp
    omega

theorem failRun_opens (ts : List ℤ) (b : CircuitBreaker)
    (h : b.state = CircuitState.closed)
    (hl : b.consecutive_failures + ts.length = b.failure_threshold)
    (hne : ts ≠ []) :
    (failRun b ts).state = CircuitState.opened := by
  induction ts generalizing b with
  | nil => exact absurd rfl hne
  | cons t ts ih =>
    cases ts with
    | nil =>
      have hge : b.consecutive_failures + 1 ≥ b.failure_threshold := by
        simp at hl; omega
      show (recordFailure b t).state = CircuitState.opened
      simp [recordFailure, h, hge, transitionTo]
    | cons t' ts' =>
      have hstep := recordFailure_closed_step b t h (by simp at hl; omega)
      obtain ⟨h1, h2, h3⟩ := hstep
      have hrec : failRun b (t :: t' :: ts') =
          failRun (recordFailure b t) (t' :: ts') := rfl
      rw [hrec]
      exact ih (recordFailure b t) h1 (by rw [h2, h3]; simp at hl ⊢; omega)
        (by simp)

theorem recordSuccess_resets (b : CircuitBreaker) (t : ℤ) :
    (recordSuccess b t).consecutive_failures = 0 := by
  by_cases hs : b.state = CircuitState.halfOpen <;>
    by_cases hm : b.half_open_calls + 1 ≥ b.half_open_max_calls <;>
      simp [recordSuccess, hs, hm, transitionTo]

theorem succRun_halfOpen_closes (ts : List ℤ) (b : CircuitBreaker)
    (h : b.state = CircuitState.halfOpen)
    (hl : b.half_open_calls + ts.length = b.half_open_max_calls)
    (hne : ts ≠ []) :
    (succRun b ts).state = CircuitState.closed ∧
    (succRun b ts).consecutive_failures = 0 ∧
    (succRun b ts).half_open_calls = b.half_open_max_calls := by
  induction ts generalizing b with
  | nil => exact absurd rfl hne
  | cons t ts ih =>
    cases ts with
    | nil =>
      have hge : b.half_open_calls + 1 ≥ b.half_open_max_calls := by
        simp at hl; omega
      show (recordSuccess b t).state = CircuitState.closed ∧
        (recordSuccess b t).consecutive_failures = 0 ∧
        (recordSuccess b t).half_open_calls = b.half_open_max_calls
      refine ⟨?_, ?_, ?_⟩ <;> simp [recordSuccess, h, hge, transitionTo]
      simp at hl
      omega
    | cons t' ts' =>
      have hlt : ¬ (b.half_open_calls + 1 ≥ b.half_open_max_calls) := by
        simp at hl; omega
      have hstep : (recordSuccess b t).state = CircuitState.halfOpen ∧
          (recordSuccess b t).half_open_calls = b.half_open_calls + 1 ∧
          (recordSuccess b t).half_open_max_calls = b.half_open_max_calls := by
        simp [recordSuccess, h, hlt]
      obtain ⟨h1, h2, h3⟩ := hstep
      have hrec : succRun b (t :: t' :: ts') =
          succRun (recordSuccess b t) (t' :: ts') := rfl
      rw [hrec]
      have := ih (recordSuccess b t) h1 (by rw [h2, h3]; simp at hl ⊢; omega)
        (by simp)
      rw [h3] at this
      exact this

/-- C1: while the observed state is Open, a protected call (sync or
async) never invokes the wrapped operation — its result does not depend
on `op` — and it yields `CircuitOpenError` when no fallback is
configured, or the fallback producer's result when one is. -/
theorem claim1_open_short_circuits {α : Type} (b : CircuitBreaker) (now : ℤ)
    (fallback : Option α) (op op' : Except Unit α)
    (h : (checkState b now).state = CircuitState.opened) :
    callSync b now fallback op = callSync b now fallback op' ∧
    callAsync b now fallback op = callAsync b now fallback op' ∧
    (fallback = none →
      (callSync b now fallback op).1 = Except.error CallError.circuitOpenError ∧
      (callAsync b now fallback op).1 = Except.error CallError.circuitOpenError) ∧
    (∀ v, fallback = some v →
      (callSync b now fallback op).1 = Except.ok v ∧
      (callAsync b now fallback op).1 = Except.ok v) := by
  cases fallback <;> simp [callSync, callAsync, h]

/-- Witness for C1: a breaker that tripped at time 0 with a 30-second
recovery timeout, observed at time 5, is still Open and short-circuits. -/
theorem claim1_open_short_circuits_witness :
    (checkState { mkCircuitBreaker 1 30 1 with
        state := CircuitState.opened, consecutive_failures := 1 } 5).state =
      CircuitState.opened ∧
    (callSync { mkCircuitBreaker 1 30 1 with
        state := CircuitState.opened, consecutive_failures := 1 } 5
        (none : Option Nat) (Except.ok 7)).1 =
      Except.error CallError.circuitOpenError := by
  have h : (checkState { mkCircuitBreaker 1 30 1 with
      state := CircuitState.opened, consecutive_failures := 1 } 5).state =
      CircuitState.opened := by decide
  exact ⟨h, ((claim1_open_short_circuits _ 5 none (Except.ok 7)
    (Except.ok 7) h).2.2.1 rfl).1⟩

/-- C2: from Closed with a zeroed consecutive-failure counter, exactly
`failure_threshold` recorded failures (threshold ≥ 1, per the
configuration contract) open the breaker, fewer leave it Closed with the
counter equal to the number of failures, and any single recorded success
resets the counter to 0. -/
theorem claim2_failure_threshold (b : CircuitBreaker) (ts : List ℤ)
    (h0 : b.state = CircuitState.closed)
    (h1 : b.consecutive_failures = 0)
    (hth : 1 ≤ b.failure_threshold) :
    (ts.length = b.failure_threshold →
      (failRun b ts).state = CircuitState.opened) ∧
    (ts.length < b.failure_threshold →
      (failRun b ts).state = CircuitState.closed ∧
      (failRun b ts).consecutive_failures = ts.length) ∧
    (∀ (c : CircuitBreaker) (t : ℤ),
      (recordSuccess c t).consecutive_failures = 0) := by
  refine ⟨fun hlen => ?_, fun hlen => ?_, fun c t => recordSuccess_resets c t⟩
  · have hne : ts ≠ [] := by
      intro hts
      rw [hts] at hlen
      simp at hlen
      omega
    exact failRun_opens ts b h0 (by omega) hne
  · have := failRun_stays_closed ts b h0 (by omega)
    exact ⟨this.1, by rw [this.2.1, h1]; simp⟩

/-- Witness for C2: with `failure_threshold = 3`, three failures open the
breaker, two leave it Closed with counter 2, a success resets. -/
theorem claim2_failure_threshold_witness :
    (failRun (mkCircuitBreaker 3 30 1) [1, 2, 3]).state =
      CircuitState.opened ∧
    (failRun (mkCircuitBreaker 3 30 1) [1, 2]).state =
      CircuitState.closed ∧
    (recordSuccess (mkCircuitBreaker 3 30 1) 1).consecutive_failures = 0 := by
  have h := claim2_failure_threshold (mkCircuitBreaker 3 30 1) [1, 2, 3]
    rfl rfl (by decide)
  have h2 := claim2_failure_threshold (mkCircuitBreaker 3 30 1) [1, 2]
    rfl rfl (by decide)
  exact ⟨h.1 (by decide), (h2.2.1 (by decide)).1, h.2.2 _ 1⟩

/-- C3 fails on the code at its final clause: a breaker with
`half_open_max_calls = 2` in Half-Open (trial counter 0) does close
after two consecutive recorded successes — but the half-open trial
counter then holds 2, not 0: `_transition_to` resets `_half_open_calls`
only on entering `HALF_OPEN`, never on the transition to `CLOSED`, so
the counters are not all reset by that transition. -/
theorem claim3_counterexample :
    (succRun { mkCircuitBreaker 3 30 2 with
      state := CircuitState.halfOpen } [31, 32]).state =
      CircuitState.closed ∧
    (succRun { mkCircuitBreaker 3 30 2 with
      state := CircuitState.halfOpen } [31, 32]).half_open_calls = 2 ∧
    ¬ (succRun { mkCircuitBreaker 3 30 2 with
      state := CircuitState.halfOpen } [31, 32]).half_open_calls = 0 := by
  refine ⟨by decide, by decide, by decide⟩

/-- C3 amended: (a) an Open breaker observed strictly before
`recovery_timeout` has elapsed since the last failure is unchanged and
still Open; (b) once that much time has elapsed, a state check yields
Half-Open with the trial counter reset to 0; (c) in Half-Open one
recorded failure re-opens the breaker; (d) `half_open_max_calls`
consecutive recorded successes (max ≥ 1, trial counter starting at 0)
close it with the consecutive-failure counter reset to 0, while the
half-open trial counter remains at `half_open_max_calls` — it is reset
only on the next entry into Half-Open, per (b). -/
theorem claim3_open_halfopen_cycle :
    (∀ (b : CircuitBreaker) (now : ℤ), b.state = CircuitState.opened →
      now - b.last_failure_time < b.recovery_timeout →
      checkState b now = b) ∧
    (∀ (b : CircuitBreaker) (now : ℤ), b.state = CircuitState.opened →
      b.recovery_timeout ≤ now - b.last_failure_time →
      (checkState b now).state = CircuitState.halfOpen ∧
      (checkState b now).half_open_calls = 0) ∧
    (∀ (b : CircuitBreaker) (now : ℤ), b.state = CircuitState.halfOpen →
      (recordFailure b now).state = CircuitState.opened) ∧
    (∀ (b : CircuitBreaker) (ts : List ℤ), b.state = CircuitState.halfOpen →
      b.half_open_calls = 0 → 1 ≤ b.half_open_max_calls →
      ts.length = b.half_open_max_calls →
      (succRun b ts).state = CircuitState.closed ∧
      (succRun b ts).consecutive_failures = 0 ∧
      (succRun b ts).half_open_calls = b.half_open_max_calls) := by
  refine ⟨?_, ?_, ?_, ?_⟩
  · intro b now h hlt
    have : ¬ (now - b.last_failure_time ≥ b.recovery_timeout) := by linarith
    simp [checkState, this]
  · intro b now h hge
    have hcond : b.state = CircuitState.opened ∧
        now - b.last_failure_time ≥ b.recovery_timeout := ⟨h, hge⟩
    constructor <;> simp [checkState, hcond, transitionTo, h]
  · intro b now h
    simp [recordFailure, h, transitionTo]
  · intro b ts h h0 hm hlen
    have hne : ts ≠ [] := by
      intro hts
      rw [hts] at hlen
      simp at hlen
      omega
    exact succRun_halfOpen_closes ts b h (by omega) hne

/-- Witness for the amended C3 at concrete inputs: breaker tripped at
time 0 with `recovery_timeout = 30`, `half_open_max_calls = 2`; after
the two closing successes the trial counter holds 2. -/
theorem claim3_open_halfopen_cycle_witness :
    checkState { mkCircuitBreaker 3 30 2 with
      state := CircuitState.opened } 5 =
      { mkCircuitBreaker 3 30 2 with state := CircuitState.opened } ∧
    (checkState { mkCircuitBreaker 3 30 2 with
      state := CircuitState.opened } 30).state = CircuitState.halfOpen ∧
    (recordFailure { mkCircuitBreaker 3 30 2 with
      state := CircuitState.halfOpen } 31).state = CircuitState.opened ∧
    (succRun { mkCircuitBreaker 3 30 2 with
      state := CircuitState.halfOpen } [31, 32]).state =
      CircuitState.closed ∧
    (succRun { mkCircuitBreaker 3 30 2 with
      state := CircuitState.halfOpen } [31, 32]).half_open_calls = 2 := by
  refine ⟨?_, ?_, ?_, ?_, ?_⟩
  · exact claim3_open_halfopen_cycle.1 _ 5 rfl (by decide)
  · exact (claim3_open_halfopen_cycle.2.1 _ 30 rfl (by decide)).1
  · exact claim3_open_halfopen_cycle.2.2.1 _ 31 rfl
  · exact (claim3_open_halfopen_cycle.2.2.2 _ [31, 32] rfl rfl
      (by decide) (by decide)).1
  · exact (claim3_open_halfopen_cycle.2.2.2 _ [31, 32] rfl rfl
      (by decide) (by decide)).2.2

end CB

/-- Python `str.strip()`: drop whitespace from both ends. -/
def pyStrip (s : List Char) : List Char :=
  ((s.dropWhile Char.isWhitespace).reverse.dropWhile Char.isWhitespace).reverse

/-- Python `str.lower()` (the texts involved are ASCII). -/
def pyLower (s : List Char) : List Char :=
  s.map Char.toLower

namespace Cache

/-- `ResponseCache._get_hash` computes
`hashlib.sha256(query.strip().lower().encode()).hexdigest()[:16]`.
The model keeps the normalized text itself as the key: the truncated
SHA-256 digest is injective on the queries the program distinguishes, so
two queries collide exactly when their normalized texts are equal. -/
def getHash (q : List Char) : List Char :=
  (pyStrip q).map Char.toLower

/-- `CacheEntry` from `response_cache.py`.  `embedding = none` models
Python `None`; `some []` models an empty vector (both are falsy where
the code tests `if entry.embedding:`).  The response payload is an
arbitrary type `α`. -/
structure CacheEntry (α : Type) where
  query : List Char
  response : α
  embedding : Option (List ℚ)
  created_at : ℤ
  hits : Nat
  ttl : ℤ
deriving DecidableEq, Repr

/-- `ResponseCache`: configuration, the exact-match store (a Python dict
modeled as an insertion-ordered association list keyed by `getHash`),
the semantic store, and the hit/miss counters.  In Python the two stores
alias the same `CacheEntry` objects; here each store keeps its own copy,
which is observationally equal for every operation modeled below except
the cross-store sharing of the `hits` counter (which no claim reads). -/
structure ResponseCache (α : Type) where
  max_size : Nat
  ttl : ℤ
  similarity_threshold : ℚ
  enable_semantic : Bool
  exact_cache : List (List Char × CacheEntry α)
  semantic_cache : List (CacheEntry α)
  hits : Nat
  misses : Nat
  semantic_hits : Nat
deriving DecidableEq, Repr

/-- `ResponseCache.__init__`. -/
def mkResponseCache (α : Type) (maxSize : Nat) (ttl : ℤ)
    (similarityThreshold : ℚ) (enableSemantic : Bool) : ResponseCache α :=
  { max_size := maxSize
    ttl := ttl
    similarity_threshold := similarityThreshold
    enable_semantic := enableSemantic
    exact_cache := []
    semantic_cache := []
    hits := 0
    misses := 0
    semantic_hits := 0 }

/-- `ResponseCache._cosine_similarity`.  The Python code computes the
norms with floating-point `** 0.5`; a real square root is not rational,
so the model takes the square-root function `sqrtQ` as a parameter,
assumed to agree with the real square root at the points where a claim
applies it. -/
def cosineSimilarity (sqrtQ : ℚ → ℚ) (a b : List ℚ) : ℚ :=
  let dotProduct := ((a.zip b).map fun p => p.1 * p.2).sum
  let normA := sqrtQ ((a.map fun x => x * x).sum)
  let normB := sqrtQ ((b.map fun x => x * x).sum)
  if normA = 0 ∨ normB = 0 then 0 else dotProduct / (normA * normB)

/-- `ResponseCache._cleanup_expired`: drop entries strictly older than
their own TTL from both stores. -/
def cleanupExpired {α : Type} (c : ResponseCache α) (now : ℤ) :
    ResponseCache α :=
  { c with
    exact_cache := c.exact_cache.filter fun p =>
      decide (now - p.2.created_at ≤ p.2.ttl)
    semantic_cache := c.semantic_cache.filter fun e =>
      decide (now - e.created_at ≤ e.ttl) }

/-- Ascending `(hits, created_at)` comparison used by
`ResponseCache._evict_lru` (Python `sorted` with a tuple key). -/
def evictLe {α : Type} (p q : List Char × CacheEntry α) : Bool :=
  decide (p.2.hits < q.2.hits ∨
    (p.2.hits = q.2.hits ∧ p.2.created_at ≤ q.2.created_at))

/-- `ResponseCache._evict_lru`: when the store is full, delete the keys
of the bottom ~10% (at least one) of entries ordered ascending by
`(hits, created_at)`. -/
def evictLru {α : Type} (c : ResponseCache α) : ResponseCache α :=
  if c.exact_cache.length ≥ c.max_size then
    let sortedItems := c.exact_cache.mergeSort evictLe
    let toRemove := max 1 (sortedItems.length / 10)
    let victims := (sortedItems.take toRemove).map fun p => p.1
    { c with exact_cache := c.exact_cache.filter fun p =>
        !(victims.contains p.1) }
  else c

/-- Python dict assignment `d[k] = v`: replace in place if the key is
present, else append. -/
def dictInsert {α : Type} (k : List Char) (v : CacheEntry α) :
    List (List Char × CacheEntry α) → List (List Char × CacheEntry α)
  | [] => [(k, v)]
  | (k', v') :: t =>
    if k' = k then (k, v) :: t else (k', v') :: dictInsert k v t

/-- Increment the hit counter of the entry stored under key `k`
(`entry.hits += 1` on an exact hit). -/
def bumpHits {α : Type} (k : List Char) :
    List (List Char × CacheEntry α) → List (List Char × CacheEntry α)
  | [] => []
  | (k', e) :: t =>
    if k' = k then (k', { e with hits := e.hits + 1 }) :: t
    else (k', e) :: bumpHits k t

/-- Increment the hit counter of the first semantic entry equal to `m`
(`best_match.hits += 1` on a semantic hit). -/
def bumpSemantic {α : Type} [DecidableEq α] (m : CacheEntry α) :
    List (CacheEntry α) → List (CacheEntry α)
  | [] => []
  | e :: t =>
    if e = m then { e with hits := e.hits + 1 } :: t
    else e :: bumpSemantic m t

/-- The best-match loop of `ResponseCache.get`: scan the semantic store,
skipping entries with a falsy embedding, keeping the entry with the
strictly largest similarity score (initial best score `0.0`). -/
def bestMatch {α : Type} (sqrtQ : ℚ → ℚ) (qe : List ℚ)
    (entries : List (CacheEntry α)) : Option (CacheEntry α) × ℚ :=
  entries.foldl
    (fun acc entry =>
      match entry.embedding with
      | some emb =>
        if emb ≠ [] then
          let score := cosineSimilarity sqrtQ qe emb
          if score > acc.2 then (some entry, score) else acc
        else acc
      | none => acc)
    (none, 0)

/-- The semantic branch of `ResponseCache.get`: guarded by
`enable_semantic` and a non-empty semantic store, it embeds the query
through the external embedding collaborator `embedFn`
(`none` models both an embedding failure and the lazy-import failure
that disables semantic mode) and accepts the best match when its score
reaches `similarity_threshold`. -/
def semanticLookup {α : Type} (sqrtQ : ℚ → ℚ)
    (embedFn : List Char → Option (List ℚ)) (c : ResponseCache α)
    (q : List Char) : Option (CacheEntry α) :=
  if c.enable_semantic = true ∧ c.semantic_cache.isEmpty = false then
    match embedFn q with
    | some qe =>
      if qe ≠ [] then
        let best := bestMatch sqrtQ qe c.semantic_cache
        match best.1 with
        | some m => if best.2 ≥ c.similarity_threshold then some m else none
        | none => none
      else none
    | none => none
  else none

/-- `ResponseCache.get`: amortized TTL sweep, then exact lookup by
normalized-query hash, then the semantic branch, else a counted miss. -/
def get {α : Type} [DecidableEq α] (sqrtQ : ℚ → ℚ)
    (embedFn : List Char → Option (List ℚ)) (c : ResponseCache α)
    (now : ℤ) (q : List Char) : Option α × ResponseCache α :=
  let c1 := cleanupExpired c now
  let queryHash := getHash q
  match c1.exact_cache.find? fun p => p.1 = queryHash with
  | some p =>
    (some p.2.response,
      { c1 with
        exact_cache := bumpHits queryHash c1.exact_cache
        hits := c1.hits + 1 })
  | none =>
    match semanticLookup sqrtQ embedFn c1 q with
    | some m =>
      (some m.response,
        { c1 with
          semantic_cache := bumpSemantic m c1.semantic_cache
          hits := c1.hits + 1
          semantic_hits := c1.semantic_hits + 1 })
    | none => (none, { c1 with misses := c1.misses + 1 })

/-- Entry TTL resolution in `ResponseCache.set`: Python `ttl or self.ttl`
falls back to the default both for `None` and for a zero TTL (0 is
falsy). -/
def resolveTtl (ttlArg : Option ℤ) (dflt : ℤ) : ℤ :=
  match ttlArg with
  | some t => if t = 0 then dflt else t
  | none => dflt

/-- `ResponseCache.set`: evict if full, insert the fresh entry into the
exact store, and in semantic mode attach the embedding to that entry and
append it to the semantic store when the embedding is truthy. -/
def set {α : Type} (embedFn : List Char → Option (List ℚ))
    (c : ResponseCache α) (now : ℤ) (q : List Char) (r : α)
    (ttlArg : Option ℤ) : ResponseCache α :=
  let c1 := evictLru c
  let queryHash := getHash q
  let entry : CacheEntry α :=
    { query := q
      response := r
      embedding := none
      created_at := now
      hits := 0
      ttl := resolveTtl ttlArg c1.ttl }
  let c2 := { c1 with exact_cache := dictInsert queryHash entry c1.exact_cache }
  if c2.enable_semantic = true then
    let emb := embedFn q
    let entry' := { entry with embedding := emb }
    let c3 := { c2 with
      exact_cache := dictInsert queryHash entry' c2.exact_cache }
    match emb with
    | some l =>
      if l ≠ [] then
        { c3 with semantic_cache := c3.semantic_cache ++ [entry'] }
      else c3
    | none => c3
  else c2

/-- `ResponseCache.invalidate`: delete the normalized query's key from
the exact store only. -/
def invalidate {α : Type} (c : ResponseCache α) (q : List Char) :
    ResponseCache α :=
  let queryHash := getHash q
  if (c.exact_cache.find? fun p => p.1 = queryHash).isSome then
    { c with exact_cache := c.exact_cache.filter fun p =>
        !(p.1 = queryHash : Bool) }
  else c

/-- A sequence of `set` calls: each element is `(now, query, response,
ttl)`. -/
def setRun {α : Type} (embedFn : List Char → Option (List ℚ))
    (c : ResponseCache α) (ops : List (ℤ × List Char × α × Option ℤ)) :
    ResponseCache α :=
  ops.foldl (fun acc op => set embedFn acc op.1 op.2.1 op.2.2.1 op.2.2.2) c

theorem length_filter_lt {β : Type} (p : β → Bool) (l : List β) (x : β)
    (hx : x ∈ l) (hp : p x = false) : (l.filter p).length < l.length := by
  induction l with
  | nil => simp at hx
  | cons a t ih =>
    rcases List.mem_cons.mp hx with rfl | hxt
    · have := List.length_filter_le p t
      simp [List.filter_cons, hp]
      omega
    · cases hpa : p a <;> simp [List.filter_cons, hpa] <;>
        have := ih hxt <;> omega

theorem find?_filter_of_find? {β : Type} (p f : β → Bool) (l : List β)
    (x : β) (hx : l.find? p = some x) (hf : f x = true) :
    (l.filter f).find? p = some x := by
  induction l with
  | nil => simp at hx
  | cons a t ih =>
    by_cases hpa : p a = true
    · rw [List.find?_cons_of_pos _ hpa] at hx
      obtain rfl := Option.some.inj hx
      rw [List.filter_cons, if_pos hf, List.find?_cons_of_pos _ hpa]
    · rw [List.find?_cons_of_neg _ (by simpa using hpa)] at hx
      by_cases hfa : f a = true
      · rw [List.filter_cons, if_pos hfa,
          List.find?_cons_of_neg _ (by simpa using hpa)]
        exact ih hx
      · rw [List.filter_cons, if_neg hfa]
        exact ih hx

theorem find?_filter_of_none {β : Type} (p f : β → Bool) (l : List β)
    (h : l.find? p = none) : (l.filter f).find? p = none := by
  rw [List.find?_eq_none] at h ⊢
  intro x hx
  exact h x (List.mem_of_mem_filter hx)

theorem find?_dictInsert_self {α : Type} (k : List Char) (v : CacheEntry α)
    (l : List (List Char × CacheEntry α)) :
    (dictInsert k v l).find? (fun p => p.1 = k) = some (k, v) := by
  induction l with
  | nil => simp [dictInsert]
  | cons a t ih =>
    by_cases h : a.1 = k
    · simp [dictInsert, h]
    · simpa [dictInsert, h] using ih

theorem length_dictInsert_le {α : Type} (k : List Char) (v : CacheEntry α)
    (l : List (List Char × CacheEntry α)) :
    (dictInsert k v l).length ≤ l.length + 1 := by
  induction l with
  | nil => simp [dictInsert]
  | cons a t ih =>
    by_cases h : a.1 = k <;> simp [dictInsert, h]
    omega

theorem length_dictInsert_dictInsert {α : Type} (k : List Char)
    (v w : CacheEntry α) (l : List (List Char × CacheEntry α)) :
    (dictInsert k v (dictInsert k w l)).length = (dictInsert k w l).length := by
  induction l with
  | nil => simp [dictInsert]
  | cons a t ih =>
    by_cases h : a.1 = k <;> simp [dictInsert, h, ih]

theorem evictLru_of_lt {α : Type} (c : ResponseCache α)
    (h : c.exact_cache.length < c.max_size) : evictLru c = c := by
  unfold evictLru
  rw [if_neg (by omega)]

theorem evictLru_fields {α : Type} (c : ResponseCache α) :
    (evictLru c).max_size = c.max_size ∧ (evictLru c).ttl = c.ttl ∧
    (evictLru c).enable_semantic = c.enable_semantic ∧
    (evictLru c).semantic_cache = c.semantic_cache ∧
    (evictLru c).similarity_threshold = c.similarity_threshold := by
  unfold evictLru
  split <;> exact ⟨rfl, rfl, rfl, rfl, rfl⟩

theorem evictLru_length_lt {α : Type} (c : ResponseCache α)
    (hmax : 1 ≤ c.max_size) (hfull : c.max_size ≤ c.exact_cache.length) :
    (evictLru c).exact_cache.length < c.exact_cache.length := by
  unfold evictLru
  rw [if_pos (by omega)]
  have hlen : (c.exact_cache.mergeSort evictLe).length = c.exact_cache.length :=
    List.length_mergeSort (l := c.exact_cache)
  have hpos : c.exact_cache.mergeSort evictLe ≠ [] := by
    intro hnil
    rw [hnil] at hlen
    simp at hlen
    omega
  obtain ⟨x, xs, hx⟩ := List.exists_cons_of_ne_nil hpos
  have hmem : x ∈ c.exact_cache :=
    (List.mergeSort_perm c.exact_cache evictLe).subset (by rw [hx]; simp)
  have hvict : x.1 ∈ ((c.exact_cache.mergeSort evictLe).take
      (max 1 ((c.exact_cache.mergeSort evictLe).length / 10))).map
        (fun p => p.1) := by
    rw [hx]
    obtain ⟨m, hm⟩ : ∃ m, max 1 ((x :: xs).length / 10) = m + 1 :=
      ⟨max 1 ((x :: xs).length / 10) - 1, by omega⟩
    rw [hm, List.take_succ_cons]
    simp
  apply length_filter_lt _ _ x hmem
  simpa using hvict

theorem set_fields {α : Type} (embedFn : List Char → Option (List ℚ))
    (c : ResponseCache α) (now : ℤ) (q : List Char) (r : α)
    (ttlArg : Option ℤ) :
    (set embedFn c now q r ttlArg).max_size = c.max_size ∧
    (set embedFn c now q r ttlArg).ttl = c.ttl ∧
    (set embedFn c now q r ttlArg).enable_semantic = c.enable_semantic := by
  obtain ⟨hm, ht, he, -, -⟩ := evictLru_fields c
  unfold set
  by_cases hsem : (evictLru c).enable_semantic = true
  · have hce : c.enable_semantic = true := by rw [← he]; exact hsem
    cases hemb : embedFn q with
    | none => simp [hemb, hsem, hm, ht, he, hce]
    | some l =>
      by_cases hl : l = [] <;> simp [hemb, hsem, hl, hm, ht, he, hce]
  · have hce : ¬ c.enable_semantic = true := by rw [← he]; exact hsem
    simp [hsem, hm, ht, he, hce]

theorem set_exact_length {α : Type} (embedFn : List Char → Option (List ℚ))
    (c : ResponseCache α) (now : ℤ) (q : List Char) (r : α)
    (ttlArg : Option ℤ) :
    (set embedFn c now q r ttlArg).exact_cache.length ≤
      (evictLru c).exact_cache.length + 1 := by
  unfold set
  by_cases hsem : (evictLru c).enable_semantic = true
  · cases hemb : embedFn q with
    | none =>
      simp only [hemb, hsem, if_pos]
      rw [length_dictInsert_dictInsert]
      exact length_dictInsert_le _ _ _
    | some l =>
      by_cases hl : l = [] <;>
        simp only [hemb, hsem, hl, if_pos, ne_eq, not_true_eq_false,
          not_false_eq_true, if_neg, if_true, ite_true, ite_false] <;>
        (rw [length_dictInsert_dictInsert]
         exact length_dictInsert_le _ _ _)
  · simp only [hsem]
    simp only [Bool.not_eq_true] at hsem
    simp [hsem]
    exact length_dictInsert_le _ _ _

theorem set_length_le {α : Type} (embedFn : List Char → Option (List ℚ))
    (c : ResponseCache α) (now : ℤ) (q : List Char) (r : α)
    (ttlArg : Option ℤ) (hmax : 1 ≤ c.max_size)
    (hlen : c.exact_cache.length ≤ c.max_size) :
    (set embedFn c now q r ttlArg).exact_cache.length ≤ c.max_size := by
  have h1 := set_exact_length embedFn c now q r ttlArg
  by_cases hfull : c.max_size ≤ c.exact_cache.length
  · have := evictLru_length_lt c hmax hfull
    omega
  · rw [evictLru_of_lt c (by omega)] at h1
    omega

/-- C5 as stated fails when the configured maximum is 0: the eviction
pass removes nothing from an empty store, and the subsequent insert
leaves 1 > 0 entries. -/
theorem claim5_counterexample :
    ((set (fun _ => none) (mkResponseCache Nat 0 100 0 false) 1 [] 0
        none).exact_cache.length >
      (mkResponseCache Nat 0 100 0 false).max_size) := by
  simp [set, mkResponseCache, evictLru, dictInsert]

/-- C5 amended: provided `max_size ≥ 1`, a cache whose exact store is
within bounds keeps at most `max_size` entries after every `set` of any
sequence of `set` calls (in particular from the empty cache, for more
than `max_size` distinct queries). -/
theorem claim5_max_size_invariant {α : Type}
    (embedFn : List Char → Option (List ℚ)) (c : ResponseCache α)
    (ops : List (ℤ × List Char × α × Option ℤ))
    (hmax : 1 ≤ c.max_size) (hlen : c.exact_cache.length ≤ c.max_size) :
    (setRun embedFn c ops).exact_cache.length ≤ c.max_size := by
  induction ops generalizing c with
  | nil => exact hlen
  | cons op ops ih =>
    have hrec : setRun embedFn c (op :: ops) =
        setRun embedFn (set embedFn c op.1 op.2.1 op.2.2.1 op.2.2.2) ops := rfl
    rw [hrec]
    obtain ⟨hm, -, -⟩ := set_fields embedFn c op.1 op.2.1 op.2.2.1 op.2.2.2
    have := ih (set embedFn c op.1 op.2.1 op.2.2.1 op.2.2.2)
      (by omega) (by rw [hm]; exact set_length_le _ _ _ _ _ _ hmax hlen)
    omega

/-- Witness for the amended C5: a `max_size = 2` cache accepts three
distinct inserts and ends within bounds. -/
theorem claim5_max_size_invariant_witness :
    (setRun (fun _ => none) (mkResponseCache Nat 2 100 0 false)
      [(1, [Char.ofNat 97], 10, none), (2, [Char.ofNat 98], 11, none),
       (3, [Char.ofNat 99], 12, none)]).exact_cache.length ≤ 2 := by
  exact claim5_max_size_invariant (fun _ => none)
    (mkResponseCache Nat 2 100 0 false) _ (by decide) (by decide)

theorem dictInsert_dictInsert {α : Type} (k : List Char)
    (v w : CacheEntry α) (l : List (List Char × CacheEntry α)) :
    dictInsert k v (dictInsert k w l) = dictInsert k v l := by
  induction l with
  | nil => simp [dictInsert]
  | cons a t ih =>
    by_cases h : a.1 = k <;> simp [dictInsert, h, ih]

theorem set_exact_cache {α : Type} (embedFn : List Char → Option (List ℚ))
    (c : ResponseCache α) (now : ℤ) (q : List Char) (r : α)
    (ttlArg : Option ℤ) :
    ∃ emb : Option (List ℚ),
      (set embedFn c now q r ttlArg).exact_cache =
        dictInsert (getHash q)
          { query := q, response := r, embedding := emb, created_at := now,
            hits := 0, ttl := resolveTtl ttlArg c.ttl }
          (evictLru c).exact_cache := by
  obtain ⟨-, ht, -, -, -⟩ := evictLru_fields c
  unfold set
  by_cases hsem : (evictLru c).enable_semantic = true
  · cases hemb : embedFn q with
    | none =>
      refine ⟨none, ?_⟩
      simp only [hemb, hsem, if_true, ite_true, ht]
      rw [dictInsert_dictInsert]
    | some l =>
      refine ⟨some l, ?_⟩
      by_cases hl : l = [] <;>
        simp only [hemb, hsem, hl, ne_eq, not_true_eq_false, if_true,
          ite_true, ite_false, not_false_eq_true, if_neg, if_pos, ht] <;>
        rw [dictInsert_dictInsert]
  · refine ⟨none, ?_⟩
    simp only [Bool.not_eq_true] at hsem
    simp [hsem, ht]

/-- C4: (a) `set(q, r)` immediately followed by `get(q')`, where `q'`
normalizes (strip + case-fold) to the same text as `q`, returns exactly
`r` as long as the entry's resolved TTL has not elapsed; (b) `get` on a
query whose normalized hash is not in the exact store and that the
semantic branch does not accept is a miss (`none`). -/
theorem claim4_normalized_roundtrip {α : Type} [DecidableEq α]
    (sqrtQ : ℚ → ℚ) (embedFn embedFn2 : List Char → Option (List ℚ))
    (c : ResponseCache α) (now now' : ℤ) (q q' : List Char) (r : α)
    (ttlArg : Option ℤ) :
    (getHash q' = getHash q →
      now' - now ≤ resolveTtl ttlArg c.ttl →
      (get sqrtQ embedFn2 (set embedFn c now q r ttlArg) now' q').1 =
        some r) ∧
    ((∀ p ∈ c.exact_cache, p.1 ≠ getHash q') →
      semanticLookup sqrtQ embedFn2 (cleanupExpired c now') q' = none →
      (get sqrtQ embedFn2 c now' q').1 = none) := by
  constructor
  · intro hnorm hfresh
    obtain ⟨emb, hex⟩ := set_exact_cache embedFn c now q r ttlArg
    have hfind : ((set embedFn c now q r ttlArg).exact_cache.filter
        fun p => decide (now' - p.2.created_at ≤ p.2.ttl)).find?
          (fun p => p.1 = getHash q) =
        some (getHash q,
          { query := q, response := r, embedding := emb, created_at := now,
            hits := 0, ttl := resolveTtl ttlArg c.ttl }) := by
      apply find?_filter_of_find?
      · rw [hex]
        exact find?_dictInsert_self _ _ _
      · simpa using hfresh
    simp only [get, cleanupExpired, hnorm, hfind]
  · intro hno hsem
    have hfind : ((c.exact_cache.filter
        fun p => decide (now' - p.2.created_at ≤ p.2.ttl)).find?
          (fun p => p.1 = getHash q')) = none := by
      apply find?_filter_of_none
      rw [List.find?_eq_none]
      intro x hx
      simpa using hno x hx
    have hsem' : semanticLookup sqrtQ embedFn2 (cleanupExpired c now') q' =
        none := hsem
    simp only [get, cleanupExpired] at hsem' ⊢
    simp only [hfind, hsem']

/-- Witness for C4 at concrete inputs: `set " A " 42` then `get "a"`
shortly after returns 42; `get` on an unseen query in a fresh cache with
semantic mode off returns `none`. -/
theorem claim4_normalized_roundtrip_witness :
    (get (fun x => x) (fun _ => none)
      (set (fun _ => none) (mkResponseCache Nat 10 3600 0 false) 0
        " A ".toList 42 none) 10 "a".toList).1 = some 42 ∧
    (get (fun x => x) (fun _ => none) (mkResponseCache Nat 10 3600 0 false)
      10 "b".toList).1 = none := by
  constructor
  · exact (claim4_normalized_roundtrip (fun x => x) (fun _ => none)
      (fun _ => none) (mkResponseCache Nat 10 3600 0 false) 0 10
      " A ".toList "a".toList 42 none).1 (by decide) (by decide)
  · exact (claim4_normalized_roundtrip (fun x => x) (fun _ => none)
      (fun _ => none) (mkResponseCache Nat 10 3600 0 false) 10 10
      "b".toList "b".toList 42 none).2 (by decide) (by decide)

/-- C10: `invalidate` deletes only from the exact-match store — the
semantic store is untouched by every `invalidate` call — and with
semantic mode enabled a later `get` whose embedding is similar enough to
the invalidated entry still returns the invalidated response through the
semantic branch (exhibited from a fresh cache, `max_size ≥ 1`). -/
theorem claim10_invalidate_spares_semantic {α : Type} [DecidableEq α] :
    (∀ (c : ResponseCache α) (q : List Char),
      (invalidate c q).semantic_cache = c.semantic_cache) ∧
    (∀ (sqrtQ : ℚ → ℚ) (embedFn embedFn2 : List Char → Option (List ℚ))
      (c : ResponseCache α) (now now' : ℤ) (q q' : List Char) (r : α)
      (ttlArg : Option ℤ) (e e' : List ℚ),
      c.exact_cache = [] → c.semantic_cache = [] →
      c.enable_semantic = true → 1 ≤ c.max_size →
      embedFn q = some e → e ≠ [] →
      embedFn2 q' = some e' → e' ≠ [] →
      0 < cosineSimilarity sqrtQ e' e →
      c.similarity_threshold ≤ cosineSimilarity sqrtQ e' e →
      now' - now ≤ resolveTtl ttlArg c.ttl →
      ((invalidate (set embedFn c now q r ttlArg) q).exact_cache.find?
        (fun p => p.1 = getHash q)) = none ∧
      (get sqrtQ embedFn2 (invalidate (set embedFn c now q r ttlArg) q)
        now' q').1 = some r) := by
  constructor
  · intro c q
    obtain ⟨ms, tt, st, es, ex, sc, hh, mm, sh⟩ := c
    by_cases h : (List.find? (fun p => decide (p.1 = getHash q))
        ex).isSome = true <;> simp [invalidate, h]
  · intro sqrtQ embedFn embedFn2 c now now' q q' r ttlArg e e' hexact hsemc
      henable hmax hembq he hembq2 he' hpos hthr hfresh
    have hev : evictLru c = c :=
      evictLru_of_lt c (by rw [hexact]; simpa using hmax)
    have hset : set embedFn c now q r ttlArg =
        { c with
          exact_cache := [(getHash q,
            ({ query := q, response := r, embedding := some e,
               created_at := now, hits := 0,
               ttl := resolveTtl ttlArg c.ttl } : CacheEntry α))]
          semantic_cache :=
            [({ query := q, response := r, embedding := some e,
                created_at := now, hits := 0,
                ttl := resolveTtl ttlArg c.ttl } : CacheEntry α)] } := by
      unfold set
      rw [hev]
      simp [henable, hembq, he, hexact, hsemc, dictInsert]
    have hinv : invalidate (set embedFn c now q r ttlArg) q =
        { c with
          exact_cache := ([] : List (List Char × CacheEntry α))
          semantic_cache :=
            [({ query := q, response := r, embedding := some e,
                created_at := now, hits := 0,
                ttl := resolveTtl ttlArg c.ttl } : CacheEntry α)] } := by
      rw [hset]
      unfold invalidate
      simp
    refine ⟨by rw [hinv]; simp, ?_⟩
    rw [hinv]
    unfold get cleanupExpired
    simp only [List.filter_nil, List.find?_nil]
    have hkeep : decide (now' -
        ({ query := q, response := r, embedding := some e, created_at := now,
           hits := 0, ttl := resolveTtl ttlArg c.ttl } : CacheEntry α).created_at ≤
        ({ query := q, response := r, embedding := some e, created_at := now,
           hits := 0, ttl := resolveTtl ttlArg c.ttl } : CacheEntry α).ttl) = true := by
      simpa using hfresh
    simp only [List.filter_cons, hkeep, if_true, List.filter_nil]
    unfold semanticLookup
    simp only [henable, List.isEmpty_cons, hembq2, he', ne_eq,
      not_false_eq_true, if_true, ite_true, and_true, true_and, if_pos]
    unfold bestMatch
    simp only [List.foldl_cons, List.foldl_nil]
    simp [he, hpos, hthr]

/-- Witness for C10: identical one-dimensional embeddings give cosine
similarity 1 ≥ threshold ½, so after `set "a" 5` and `invalidate "a"`
the semantic branch still answers `get "b"` with 5. -/
theorem claim10_invalidate_spares_semantic_witness :
    ((invalidate (set (fun _ => some [1])
        (mkResponseCache Nat 10 100 (1/2) true) 0 "a".toList 5 none)
        "a".toList).exact_cache.find?
          (fun p => p.1 = getHash "a".toList)) = none ∧
    (get (fun x => x) (fun _ => some [1])
      (invalidate (set (fun _ => some [1])
        (mkResponseCache Nat 10 100 (1/2) true) 0 "a".toList 5 none)
        "a".toList) 10 "b".toList).1 = some 5 := by
  exact (claim10_invalidate_spares_semantic (α := Nat)).2 (fun x => x)
    (fun _ => some [1]) (fun _ => some [1])
    (mkResponseCache Nat 10 100 (1/2) true) 0 10 "a".toList "b".toList 5
    none [1] [1] rfl rfl rfl (by decide) rfl (by decide) rfl (by decide)
    (by norm_num [cosineSimilarity])
    (by norm_num [cosineSimilarity, mkResponseCache])
    (by decide)

end Cache

namespace AB

/-- `Experiment` from `ab_testing.py`.  The Python `variants` dict is an
insertion-ordered variant-name → traffic-weight association list; the
float weights become exact rationals. -/
structure Experiment where
  name : String
  variants : List (String × ℚ)
  enabled : Bool
  created_at : ℤ
  description : String
deriving DecidableEq, Repr

/-- `ABTestManager` state.  Only the `experiments` dict is modeled: the
`results` log and `results_dir` are touched solely by
`record_result` / `export_results`, which no claim exercises. -/
structure ABTestManager where
  experiments : List (String × Experiment)
deriving DecidableEq, Repr

/-- Python dict assignment `self.experiments[name] = experiment`:
replace in place when the key exists, else append. -/
def dictUpdate (k : String) (v : Experiment) :
    List (String × Experiment) → List (String × Experiment)
  | [] => [(k, v)]
  | (k', v') :: t =>
    if k' = k then (k, v) :: t else (k', v') :: dictUpdate k v t

/-- `self.experiments[name].variants = variants` in `update_traffic`:
replace only the `variants` field of the stored experiment. -/
def setVariants (k : String) (variants : List (String × ℚ)) :
    List (String × Experiment) → List (String × Experiment)
  | [] => []
  | (k', e) :: t =>
    if k' = k then (k', { e with variants := variants }) :: t
    else (k', e) :: setVariants k variants t

/-- `ABTestManager.create_experiment`: reject (raise `ValueError`,
modeled `Except.error ()`) when the weights do not sum to 1.0 ± 0.01,
else store the new experiment under its name — overwriting any existing
entry — and return it.  The manager in the pair is the state after the
call: on error it is the unchanged input state. -/
def createExperiment (m : ABTestManager) (name : String)
    (variants : List (String × ℚ)) (description : String) (now : ℤ) :
    Except Unit Experiment × ABTestManager :=
  let totalWeight := (variants.map fun p => p.2).sum
  if |totalWeight - 1| > 1 / 100 then
    (Except.error (), m)
  else
    let experiment : Experiment :=
      { name := name, variants := variants, enabled := true,
        created_at := now, description := description }
    (Except.ok experiment,
      { m with experiments := dictUpdate name experiment m.experiments })

/-- `ABTestManager.update_traffic`: raise for an unknown experiment,
raise when the new weights do not sum to 1.0 ± 0.01, else replace the
stored experiment's weights. -/
def updateTraffic (m : ABTestManager) (name : String)
    (variants : List (String × ℚ)) : Except Unit Unit × ABTestManager :=
  if (m.experiments.find? fun p => p.1 = name).isSome = false then
    (Except.error (), m)
  else
    let totalWeight := (variants.map fun p => p.2).sum
    if |totalWeight - 1| > 1 / 100 then
      (Except.error (), m)
    else
      (Except.ok (), { m with experiments := setVariants name variants m.experiments })

/-- The bucket of `get_variant`:
`(int(md5(name + ":" + session).hexdigest(), 16) % 10000) / 10000`.
The MD5 digest is a fixed pure function of the input string; it enters
the model as the oracle `hashFn`. -/
def bucketOf (hashFn : String → Nat) (name session : String) : ℚ :=
  ((hashFn (name ++ ":" ++ session) % 10000 : ℕ) : ℚ) / 10000

/-- The accumulation loop of `get_variant`: walk the variants in
declared order, returning the first whose cumulative weight exceeds the
bucket. -/
def pickLoop : List (String × ℚ) → ℚ → ℚ → Option String
  | [], _, _ => none
  | (variant, weight) :: rest, cumulative, bucket =>
    if bucket < cumulative + weight then some variant
    else pickLoop rest (cumulative + weight) bucket

/-- The weight walk of `get_variant` including its fallback
`list(experiment.variants.keys())[-1]` (`none` models the `IndexError`
on an experiment with no variants). -/
def pickVariant (variants : List (String × ℚ)) (bucket : ℚ) :
    Option String :=
  match pickLoop variants 0 bucket with
  | some v => some v
  | none => variants.getLast?.map fun p => p.1

/-- `ABTestManager.get_variant`.  An unknown experiment yields the
literal string `"default"`; a known-but-disabled experiment yields its
first declared variant (`none` models the `IndexError` of `keys()[0]` on
an empty variants dict); otherwise the bucket walk decides. -/
def getVariant (m : ABTestManager) (hashFn : String → Nat)
    (experimentName sessionId : String) : Option String :=
  match (m.experiments.find? fun p => p.1 = experimentName).map
      (fun p => p.2) with
  | none => some "default"
  | some experiment =>
    if experiment.enabled = false then
      experiment.variants.head?.map fun p => p.1
    else
      pickVariant experiment.variants
        (bucketOf hashFn experimentName sessionId)

/-- Cumulative weight of the variants up to and including index `i`. -/
def cumWeight (variants : List (String × ℚ)) (i : Nat) : ℚ :=
  ((variants.take (i + 1)).map fun p => p.2).sum

theorem find?_dictUpdate_self (k : String) (v : Experiment)
    (l : List (String × Experiment)) :
    (dictUpdate k v l).find? (fun p => p.1 = k) = some (k, v) := by
  induction l with
  | nil => simp [dictUpdate]
  | cons a t ih =>
    by_cases h : a.1 = k
    · simp [dictUpdate, h]
    · simpa [dictUpdate, h] using ih

theorem cumWeight_cons_zero (p : String × ℚ) (rest : List (String × ℚ)) :
    cumWeight (p :: rest) 0 = p.2 := by
  simp [cumWeight]

theorem cumWeight_cons_succ (p : String × ℚ) (rest : List (String × ℚ))
    (i : Nat) : cumWeight (p :: rest) (i + 1) = p.2 + cumWeight rest i := by
  simp [cumWeight, List.take_succ_cons]

theorem pickLoop_hit (variants : List (String × ℚ)) (cumulative bucket : ℚ)
    (i : Nat) (hi : i < variants.length)
    (hhit : bucket < cumulative + cumWeight variants i)
    (hmiss : ∀ j < i, ¬ bucket < cumulative + cumWeight variants j) :
    pickLoop variants cumulative bucket =
      some (variants.get ⟨i, hi⟩).1 := by
  induction variants generalizing cumulative i with
  | nil => simp at hi
  | cons p rest ih =>
    cases i with
    | zero =>
      rw [cumWeight_cons_zero] at hhit
      simp [pickLoop, hhit]
    | succ i' =>
      have h0 := hmiss 0 (Nat.succ_pos _)
      rw [cumWeight_cons_zero] at h0
      simp only [pickLoop, h0, if_false, ite_false]
      have hi' : i' < rest.length := by simpa using hi
      have hhit' : bucket < (cumulative + p.2) + cumWeight rest i' := by
        rw [cumWeight_cons_succ] at hhit
        linarith
      have hmiss' : ∀ j < i',
          ¬ bucket < (cumulative + p.2) + cumWeight rest j := by
        intro j hj
        have := hmiss (j + 1) (by omega)
        rw [cumWeight_cons_succ] at this
        intro hcon
        exact this (by linarith)
      simpa using ih (cumulative + p.2) i' hi' hhit' hmiss'

theorem pickLoop_none (variants : List (String × ℚ)) (cumulative bucket : ℚ)
    (h : ∀ i, i < variants.length →
      ¬ bucket < cumulative + cumWeight variants i) :
    pickLoop variants cumulative bucket = none := by
  induction variants generalizing cumulative with
  | nil => rfl
  | cons p rest ih =>
    have h0 := h 0 (by simp)
    rw [cumWeight_cons_zero] at h0
    simp only [pickLoop, h0, if_false, ite_false]
    apply ih
    intro i hi
    have := h (i + 1) (by simpa using hi)
    rw [cumWeight_cons_succ] at this
    intro hcon
    exact this (by linarith)

/-- C8: a variant-weight mapping whose weights are not within 0.01 of
1.0 makes both `create_experiment` and `update_traffic` raise
(`Except.error ()`) with the manager state unchanged by the failed
call. -/
theorem claim8_weight_sum_validation (m : ABTestManager) (name : String)
    (variants : List (String × ℚ)) (description : String) (now : ℤ)
    (hbad : |((variants.map fun p => p.2).sum) - 1| > 1 / 100) :
    createExperiment m name variants description now =
      (Except.error (), m) ∧
    updateTraffic m name variants = (Except.error (), m) := by
  constructor
  · simp only [createExperiment]
    rw [if_pos hbad]
  · by_cases hmem : (m.experiments.find? fun p => p.1 = name).isSome = false
    · simp only [updateTraffic]
      rw [if_pos hmem]
    · simp only [updateTraffic]
      rw [if_neg hmem, if_pos hbad]

/-- Witness for C8: weights summing to ½ are rejected by both calls on a
fresh manager. -/
theorem claim8_weight_sum_validation_witness :
    createExperiment { experiments := [] } "e" [("a", 1/2)] "" 0 =
      (Except.error (), ({ experiments := [] } : ABTestManager)) ∧
    updateTraffic { experiments := [] } "e" [("a", 1/2)] =
      (Except.error (), ({ experiments := [] } : ABTestManager)) := by
  exact claim8_weight_sum_validation { experiments := [] } "e"
    [("a", 1/2)] "" 0 (by norm_num [lt_abs])

/-- C7 fails on the code: re-creating experiment `"e"` succeeds and
silently replaces the stored configuration instead of being rejected. -/
theorem claim7_counterexample :
    ((createExperiment
        (createExperiment { experiments := [] } "e" [("a", 1)] "" 0).2
        "e" [("b", 1)] "" 1).1 =
      Except.ok
        { name := "e", variants := [("b", 1)], enabled := true,
          created_at := 1, description := "" }) ∧
    ((createExperiment
        (createExperiment { experiments := [] } "e" [("a", 1)] "" 0).2
        "e" [("b", 1)] "" 1).2).experiments =
      [("e",
        { name := "e", variants := [("b", 1)], enabled := true,
          created_at := 1, description := "" })] := by
  constructor <;> norm_num [createExperiment, dictUpdate]

/-- C7 amended: `create_experiment` with an already-present name is not
rejected — whenever the new weights pass validation the call succeeds
and overwrites the stored experiment with the new configuration. -/
theorem claim7_create_overwrites (m : ABTestManager) (name : String)
    (variants : List (String × ℚ)) (description : String) (now : ℤ)
    (_hmem : (m.experiments.find? fun p => p.1 = name).isSome = true)
    (hgood : ¬ |((variants.map fun p => p.2).sum) - 1| > 1 / 100) :
    (createExperiment m name variants description now).1 =
      Except.ok
        { name := name, variants := variants, enabled := true,
          created_at := now, description := description } ∧
    ((createExperiment m name variants description now).2).experiments.find?
        (fun p => p.1 = name) =
      some (name,
        { name := name, variants := variants, enabled := true,
          created_at := now, description := description }) := by
  constructor
  · simp only [createExperiment]
    rw [if_neg hgood]
  · simp only [createExperiment]
    rw [if_neg hgood]
    exact find?_dictUpdate_self name _ m.experiments

/-- Witness for the amended C7: the overwrite of the counterexample
scenario, derived from the theorem. -/
theorem claim7_create_overwrites_witness :
    ((createExperiment
        (createExperiment { experiments := [] } "e" [("a", 1)] "" 0).2
        "e" [("b", 1)] "" 1).1 =
      Except.ok
        { name := "e", variants := [("b", 1)], enabled := true,
          created_at := 1, description := "" }) := by
  exact (claim7_create_overwrites
    (createExperiment { experiments := [] } "e" [("a", 1)] "" 0).2
    "e" [("b", 1)] "" 1 (by norm_num [createExperiment, dictUpdate])
    (by norm_num)).1

/-- C6 fails on the code for an unknown experiment: `get_variant`
returns the literal string `"default"`, which is not a declared variant
of anything (the only declared first variant is `"a"`). -/
theorem claim6_counterexample :
    getVariant { experiments := [("exp",
      { name := "exp", variants := [("a", 1)], enabled := true,
        created_at := 0, description := "" })] } (fun _ => 0)
      "missing" "s" = some "default" ∧
    ("default" : String) ≠ "a" := by
  constructor
  · rfl
  · decide

/-- C6 amended: an unknown experiment yields the fixed string
`"default"`; a known-but-disabled experiment yields its first declared
variant; an enabled experiment is resolved by the bucket
`(hash(name ++ ":" ++ session) mod 10000) / 10000`: the first variant
(in declared order) whose cumulative weight exceeds the bucket wins, and
if none does, the last declared variant is returned. -/
theorem claim6_variant_resolution :
    (∀ (m : ABTestManager) (hashFn : String → Nat) (name session : String),
      (m.experiments.find? fun p => p.1 = name) = none →
      getVariant m hashFn name session = some "default") ∧
    (∀ (m : ABTestManager) (hashFn : String → Nat) (name session : String)
        (pr : String × Experiment) (v : String) (w : ℚ)
        (rest : List (String × ℚ)),
      (m.experiments.find? fun p => p.1 = name) = some pr →
      pr.2.enabled = false → pr.2.variants = (v, w) :: rest →
      getVariant m hashFn name session = some v) ∧
    (∀ (m : ABTestManager) (hashFn : String → Nat) (name session : String)
        (pr : String × Experiment),
      (m.experiments.find? fun p => p.1 = name) = some pr →
      pr.2.enabled = true →
      (∀ (i : Nat) (hi : i < pr.2.variants.length),
        bucketOf hashFn name session < cumWeight pr.2.variants i →
        (∀ j < i, ¬ bucketOf hashFn name session <
          cumWeight pr.2.variants j) →
        getVariant m hashFn name session =
          some (pr.2.variants.get ⟨i, hi⟩).1) ∧
      ((∀ i, i < pr.2.variants.length →
          ¬ bucketOf hashFn name session < cumWeight pr.2.variants i) →
        getVariant m hashFn name session =
          pr.2.variants.getLast?.map fun p => p.1)) := by
  refine ⟨?_, ?_, ?_⟩
  · intro m hashFn name session hfind
    simp [getVariant, hfind]
  · intro m hashFn name session pr v w rest hfind hdis hvar
    simp [getVariant, hfind, hdis, hvar]
  · intro m hashFn name session pr hfind hen
    constructor
    · intro i hi hhit hmiss
      have hpick := pickLoop_hit pr.2.variants 0
        (bucketOf hashFn name session) i hi (by rwa [zero_add])
        (by intro j hj; rw [zero_add]; exact hmiss j hj)
      simp [getVariant, hfind, hen, pickVariant, hpick]
    · intro hnone
      have hpick := pickLoop_none pr.2.variants 0
        (bucketOf hashFn name session)
        (by intro i hi; rw [zero_add]; exact hnone i hi)
      simp [getVariant, hfind, hen, pickVariant, hpick]

/-- Witness for the amended C6: an unknown name yields `"default"`; a
disabled experiment yields its first variant `"a"`; with weights
½ / ½ and a hash giving bucket 0.7, the enabled walk picks `"b"`. -/
theorem claim6_variant_resolution_witness :
    getVariant { experiments := [] } (fun _ => 0) "x" "s" =
      some "default" ∧
    getVariant { experiments := [("exp",
      { name := "exp", variants := [("a", 1/2), ("b", 1/2)],
        enabled := false, created_at := 0, description := "" })] }
      (fun _ => 0) "exp" "s" = some "a" ∧
    getVariant { experiments := [("exp",
      { name := "exp", variants := [("a", 1/2), ("b", 1/2)],
        enabled := true, created_at := 0, description := "" })] }
      (fun _ => 7000) "exp" "s" = some "b" := by
  refine ⟨?_, ?_, ?_⟩
  · exact claim6_variant_resolution.1 { experiments := [] } (fun _ => 0)
      "x" "s" rfl
  · exact claim6_variant_resolution.2.1
      { experiments := [("exp",
          { name := "exp", variants := [("a", 1/2), ("b", 1/2)],
            enabled := false, created_at := 0, description := "" })] }
      (fun _ => 0) "exp" "s"
      ("exp",
        { name := "exp", variants := [("a", 1/2), ("b", 1/2)],
          enabled := false, created_at := 0, description := "" })
      "a" (1/2) [("b", 1/2)] rfl rfl rfl
  · exact (claim6_variant_resolution.2.2
      { experiments := [("exp",
          { name := "exp", variants := [("a", 1/2), ("b", 1/2)],
            enabled := true, created_at := 0, description := "" })] }
      (fun _ => 7000) "exp" "s"
      ("exp",
        { name := "exp", variants := [("a", 1/2), ("b", 1/2)],
          enabled := true, created_at := 0, description := "" })
      rfl rfl).1 1 (by decide)
      (by norm_num [bucketOf, cumWeight])
      (by
        intro j hj
        have hj0 : j = 0 := by omega
        subst hj0
        norm_num [bucketOf, cumWeight])

end AB

namespace Dispatch

/-- Python list/string prefix test used to implement substring
containment. -/
def startsWithL : List Char → List Char → Bool
  | [], _ => true
  | _ :: _, [] => false
  | a :: as, b :: bs => a == b && startsWithL as bs

/-- Python `needle in haystack` substring containment. -/
def containsSub (needle : List Char) : List Char → Bool
  | [] => needle.isEmpty
  | c :: t => startsWithL needle (c :: t) || containsSub needle t

/-- The `valid_agents` list of `SupervisorAgent.route`, in its fixed
priority order. -/
def validAgents : List (List Char) :=
  ["ProductAgent".toList, "OrderAgent".toList, "AfterSalesAgent".toList,
   "ChitchatAgent".toList]

/-- `SupervisorAgent.route` after the model call: strip the response
text, return the first valid agent name contained case-insensitively in
it as a substring, defaulting to `ChitchatAgent`.  The classifier model
call itself is the external collaborator; `responseContent` is the text
it returned. -/
def route (responseContent : List Char) : List Char :=
  let agentName := pyStrip responseContent
  match validAgents.find? (fun validAgent =>
      containsSub (pyLower validAgent) (pyLower agentName)) with
  | some validAgent => validAgent
  | none => "ChitchatAgent".toList

/-- C9 fails on the code: the response `"I choose ProductAgent"` is not
an exact case-insensitive match of any valid handler identifier, yet it
routes to `ProductAgent`, not to the designated fallback
`ChitchatAgent` — the code matches identifiers as substrings. -/
theorem claim9_counterexample :
    route "I choose ProductAgent".toList = "ProductAgent".toList ∧
    route "I choose ProductAgent".toList ≠ "ChitchatAgent".toList ∧
    ∀ a ∈ validAgents,
      pyLower (pyStrip "I choose ProductAgent".toList) ≠ pyLower a := by
  refine ⟨by decide, by decide, by decide⟩

theorem find?_eq_get_first {β : Type} (p : β → Bool) (l : List β) (i : Nat)
    (hi : i < l.length) (hhit : p (l.get ⟨i, hi⟩) = true)
    (hmiss : ∀ (j : Nat) (hj : j < i),
      p (l.get ⟨j, Nat.lt_trans hj hi⟩) = false) :
    l.find? p = some (l.get ⟨i, hi⟩) := by
  induction l generalizing i with
  | nil => simp at hi
  | cons a t ih =>
    cases i with
    | zero =>
      rw [List.find?_cons_of_pos _ (by simpa using hhit)]
      rfl
    | succ k =>
      have h0 : p a = false := by simpa using hmiss 0 (Nat.succ_pos k)
      rw [List.find?_cons_of_neg _ (by simp [h0])]
      have hk : k < t.length := by simpa using hi
      have hrec := ih k hk (by simpa using hhit)
        (fun j hj => by simpa using hmiss (j + 1) (by omega))
      simpa using hrec

/-- C9 amended: a response containing a valid handler identifier
case-insensitively as a substring routes to the first containing-match
in the fixed priority order of `valid_agents`; in particular a response
exactly matching a valid identifier case-insensitively routes to that
handler; a response containing no valid identifier as a case-insensitive
substring routes to `ChitchatAgent`; and routing always resolves to
exactly one valid handler. -/
theorem claim9_substring_routing :
    (∀ (response : List Char) (i : Nat) (hi : i < validAgents.length),
      containsSub (pyLower (validAgents.get ⟨i, hi⟩))
        (pyLower (pyStrip response)) = true →
      (∀ (j : Nat) (hj : j < i),
        containsSub (pyLower (validAgents.get ⟨j, Nat.lt_trans hj hi⟩))
          (pyLower (pyStrip response)) = false) →
      route response = validAgents.get ⟨i, hi⟩) ∧
    (∀ (response a : List Char), a ∈ validAgents →
      pyLower (pyStrip response) = pyLower a →
      route response = a) ∧
    (∀ response : List Char,
      (∀ a ∈ validAgents,
        containsSub (pyLower a) (pyLower (pyStrip response)) = false) →
      route response = "ChitchatAgent".toList) ∧
    (∀ response : List Char, route response ∈ validAgents) := by
  refine ⟨?_, ?_, ?_, ?_⟩
  · intro response i hi hhit hmiss
    have hfind := find?_eq_get_first
      (fun v => containsSub (pyLower v) (pyLower (pyStrip response)))
      validAgents i hi hhit hmiss
    simp only [route, hfind]
  · intro response a ha hnorm
    fin_cases ha <;>
      (unfold route
       simp only [hnorm]
       decide)
  · intro response h
    unfold route
    have hnone : validAgents.find? (fun v =>
        containsSub (pyLower v) (pyLower (pyStrip response))) = none := by
      rw [List.find?_eq_none]
      intro a ha
      simp [h a ha]
    simp [hnone]
  · intro response
    unfold route
    cases hfind : validAgents.find? (fun v =>
        containsSub (pyLower v) (pyLower (pyStrip response))) with
    | none => simp [hfind]; decide
    | some v =>
      simp only [hfind]
      exact List.mem_of_find?_eq_some hfind

/-- Witness for the amended C9 at concrete responses:
`"go OrderAgent now"` contains only the priority-1 identifier
`OrderAgent` as a substring and routes to it. -/
theorem claim9_substring_routing_witness :
    route "go OrderAgent now".toList = "OrderAgent".toList ∧
    route "  OrderAgent  ".toList = "OrderAgent".toList ∧
    route "banana".toList = "ChitchatAgent".toList ∧
    route "whatever".toList ∈ validAgents := by
  refine ⟨?_, ?_, ?_, ?_⟩
  · exact claim9_substring_routing.1 "go OrderAgent now".toList 1
      (by decide) (by decide)
      (by
        intro j hj
        have hj0 : j = 0 := by omega
        subst hj0
        show containsSub (pyLower "ProductAgent".toList)
          (pyLower (pyStrip "go OrderAgent now".toList)) = false
        decide)
  · exact claim9_substring_routing.2.1 "  OrderAgent  ".toList
      "OrderAgent".toList (by decide) (by decide)
  · exact claim9_substring_routing.2.2.1 "banana".toList (by decide)
  · exact claim9_substring_routing.2.2.2 "whatever".toList

end Dispatch

end ShopMate
